import Mathlib

/-!
Verification of src/word_analysis.py.

The program is a tokenizer plus a frequency tally.  We embed the file
content as a `List Char` (the text as Python's text mode delivers it,
line breaks normalized to a newline character) and every operation of the
program as an executable Lean function:

 * `splitLines` models Python's line iteration over an open text file:
   the content is cut after each newline, keeping the newline, and a final
   piece without a newline is kept as a last line.
 * `scanLine` models `word_pattern.findall(line)` for the pattern
   (lookbehind whitespace-or-line-start)(letters+ hyphen? letters*)(lookahead whitespace)
   as a left-to-right scan.  Since every atom of the pattern matches a single
   character and a failed attempt makes the engine advance one position (where
   the lookbehind can only succeed right after a whitespace character), the
   scan is a character automaton: `idle b` means no candidate is in progress
   and `b` records whether the previous character was whitespace or we are at
   the start of the line; `tok1` is inside the leading letter run; `tok2` is
   after the optional hyphen.  A candidate is emitted only when the next
   character is whitespace (the lookahead), which is exactly the reference
   behavior, including the end-of-input asymmetry.
 * `bump`/`List.foldl bump []` model the insertion-ordered Python dict tally.
 * `insertDesc`/`sortDesc` model `sorted(..., key=itemgetter(1), reverse=True)`,
   Python's stable sort by count descending (a stable sort is unique as a
   function, so any stable implementation is a faithful model).
 * `tryPat`/`scanOcc` model `re.compile(prefix + word + suffix).findall` in
   `word_occurrences` for target strings built from letters, hyphens and dots
   (the fragment exercised here): each character of the compiled word is a
   one-character atom, `.` matching any character except newline and letters
   matching case-insensitively (re.IGNORECASE).  The target is not escaped by
   the source, which is why `.` keeps its pattern meaning.
 * `mainRun` models the `__main__` dispatch, with the file system abstracted
   as a function from paths to `Option` content (`none` = FileNotFoundError).

Character classes are the ASCII parts of Python's `\s`, `[a-zA-Z]` and
`str.lower`, which is exhaustive for the words the program can ever tally.
-/

set_option maxHeartbeats 1000000

namespace WordAnalysis

/-- ASCII whitespace, the characters Python's regex class matches here
(space, tab, newline, carriage return, vertical tab, form feed). -/
def isWs (c : Char) : Bool :=
  decide (c = ' ' ∨ c = '\t' ∨ c = '\n' ∨ c = '\r' ∨ c = '\x0b' ∨ c = '\x0c')

/-- The regex class of letters a-z and A-Z. -/
def isAlpha (c : Char) : Bool :=
  decide (('a' ≤ c ∧ c ≤ 'z') ∨ ('A' ≤ c ∧ c ≤ 'Z'))

/-- Lowercasing as `str.lower` acts on the ASCII letters the tokenizer emits. -/
def asciiLower (c : Char) : Char :=
  if ('A' ≤ c ∧ c ≤ 'Z') then Char.ofNat (c.toNat + 32) else c

/-- Lowercase a word, modelling `word.lower()`. -/
def lowerStr (w : List Char) : List Char := w.map asciiLower

/-- State of the scan of one line by `word_pattern.findall`. -/
inductive ScanState where
  /-- No candidate in progress; the flag says whether a match may start here
  (start of line or previous character whitespace: the regex lookbehind). -/
  | idle (bdy : Bool)
  /-- Inside the leading letter run of a candidate. -/
  | tok1 (acc : List Char)
  /-- After the optional hyphen of a candidate. -/
  | tok2 (acc : List Char)

/-- Words emitted when the scanner reads character `c`: a candidate is
complete exactly when the next character is whitespace (the lookahead). -/
def stepEmit : ScanState → Char → List (List Char)
  | .idle _, _ => []
  | .tok1 acc, c =>
      if isAlpha c then [] else if c = '-' then []
      else if isWs c then [acc] else []
  | .tok2 acc, c =>
      if isAlpha c then [] else if isWs c then [acc] else []

/-- Scanner state after reading character `c`. -/
def stepNext : ScanState → Char → ScanState
  | .idle bdy, c => if bdy && isAlpha c then .tok1 [c] else .idle (isWs c)
  | .tok1 acc, c =>
      if isAlpha c then .tok1 (acc ++ [c])
      else if c = '-' then .tok2 (acc ++ ['-'])
      else .idle (isWs c)
  | .tok2 acc, c => if isAlpha c then .tok2 (acc ++ [c]) else .idle (isWs c)

/-- Scan of one line: the sequence of pattern matches in left-to-right order.
A candidate pending at the end of the input is never emitted, because the
lookahead for a following whitespace character has nothing to look at. -/
def scanLine : ScanState → List Char → List (List Char)
  | _, [] => []
  | st, c :: rest => stepEmit st c ++ scanLine (stepNext st c) rest

/-- All matches of `word_pattern.findall` on one line. -/
def findWords (line : List Char) : List (List Char) :=
  scanLine (.idle true) line

/-- Helper of `splitLines`: `cur` is the line collected so far. -/
def splitLinesAux (cur : List Char) : List Char → List (List Char)
  | [] => if cur = [] then [] else [cur]
  | c :: rest =>
      if c = '\n' then (cur ++ [c]) :: splitLinesAux [] rest
      else splitLinesAux (cur ++ [c]) rest

/-- Python's iteration over an open text file: lines keep their trailing
newline; a last piece without a newline is still a line; an empty file
yields no lines. -/
def splitLines (s : List Char) : List (List Char) := splitLinesAux [] s

/-- Concatenation of a list of lists (the per-line results of the scan,
in file order). -/
def concatAll : List (List α) → List α
  | [] => []
  | l :: ls => l ++ concatAll ls

/-- The raw (not yet lowercased) substrings of the file matched by the
word pattern, line by line. -/
def matchedTokens (s : List Char) : List (List Char) :=
  concatAll ((splitLines s).map findWords)

/-- The words of one line as `three_most_common_words` collects them:
each match of the pattern, lowercased. -/
def lineWords (line : List Char) : List (List Char) :=
  (findWords line).map lowerStr

/-- The full word stream of the file, in file order. -/
def wordsOf (s : List Char) : List (List Char) :=
  concatAll ((splitLines s).map lineWords)

/-- One step of the tally: increment the count of `w`, or append `(w, 1)`
if `w` is new.  Models the dict update, which keeps insertion order. -/
def bump : List (List Char × Nat) → List Char → List (List Char × Nat)
  | [], w => [(w, 1)]
  | (k, n) :: rest, w =>
      if k = w then (k, n + 1) :: rest else (k, n) :: bump rest w

/-- The frequency table `word_occurrences` of `three_most_common_words`:
the dict after tallying the whole word stream. -/
def wordTally (s : List Char) : List (List Char × Nat) :=
  (wordsOf s).foldl bump []

/-- Stable insertion (by count, descending) of an element that originally
came before the elements of the list it is inserted into. -/
def insertDesc (x : List Char × Nat) : List (List Char × Nat) → List (List Char × Nat)
  | [] => [x]
  | y :: ys => if y.2 ≤ x.2 then x :: y :: ys else y :: insertDesc x ys

/-- Python's `sorted(items, key=itemgetter(1), reverse=True)`: stable sort
by count, descending. -/
def sortDesc : List (List Char × Nat) → List (List Char × Nat)
  | [] => []
  | x :: xs => insertDesc x (sortDesc xs)

/-- The sorted (word, count) pairs of `three_most_common_words`
before the `[:3]` truncation. -/
def sortedTally (s : List Char) : List (List Char × Nat) :=
  sortDesc (wordTally s)

/-- The pure core of `three_most_common_words` on a given file content:
top three of the sorted tally, words only. -/
def threeMostCommonWords (s : List Char) : List (List Char) :=
  ((sortedTally s).take 3).map Prod.fst

/-- Count lookup in the tally (0 when absent). -/
def lookupCount (m : List (List Char × Nat)) (w : List Char) : Nat :=
  match m with
  | [] => 0
  | (k, n) :: rest => if k = w then n else lookupCount rest w

/-- Sum of all counts of a tally. -/
def sumCounts (m : List (List Char × Nat)) : Nat :=
  match m with
  | [] => 0
  | (_, n) :: rest => n + sumCounts rest

/-- Number of occurrences of `w` in a list of words. -/
def countIn (ts : List (List Char)) (w : List Char) : Nat :=
  match ts with
  | [] => 0
  | t :: rest => (if t = w then 1 else 0) + countIn rest w

/-- Position of the first occurrence of `w` (length of the list if absent). -/
def posIn (w : List Char) : List (List Char) → Nat
  | [] => 0
  | x :: xs => if x = w then 0 else posIn w xs + 1

/-- Trailing letter run of the word grammar (`[a-zA-Z]*$`). -/
def allAlpha : List Char → Bool
  | [] => true
  | c :: rest => isAlpha c && allAlpha rest

/-- Rest of the word grammar after at least one letter
(`[a-zA-Z]*[-]?[a-zA-Z]*$` with the letters glued to the leading run). -/
def after1 : List Char → Bool
  | [] => true
  | c :: rest =>
      if isAlpha c then after1 rest
      else if c = '-' then allAlpha rest
      else false

/-- Full-string match of `^[a-zA-Z]+[-]?[a-zA-Z]*$`: a nonempty letter run,
an optional hyphen, a possibly empty letter run. -/
def grammarMatch : List Char → Bool
  | [] => false
  | c :: rest => isAlpha c && after1 rest

/-- `word_is_valid` of the source: `re.match("^[a-zA-Z]+[-]?[a-zA-Z]*$", word)`.
Python's `$` also matches just before a final newline, so a word with one
trailing newline is accepted too; that quirk is kept. -/
def wordIsValid (w : List Char) : Bool :=
  grammarMatch w || (decide (w.getLast? = some '\n') && grammarMatch w.dropLast)

/-- Python `word.strip()` restricted to the ASCII whitespace set. -/
def stripWs (w : List Char) : List Char :=
  ((w.dropWhile isWs).reverse.dropWhile isWs).reverse

/-- One atom of the compiled occurrence pattern under re.IGNORECASE, for the
regex fragment the unescaped target can contribute here: `.` matches any
character but a newline; any other character matches itself up to case. -/
def patAtom (p c : Char) : Bool :=
  if p = '.' then decide (c ≠ '\n') else decide (asciiLower p = asciiLower c)

/-- One atom of the purely literal matcher (the spec's reading): every
character of the target only matches itself up to case. -/
def litAtom (p c : Char) : Bool :=
  decide (asciiLower p = asciiLower c)

/-- Try to match the pattern `p :: ps` atom by atom at the head of the text;
on success return the last matched character and the remaining text. -/
def tryPat (atom : Char → Char → Bool) : Char → List Char → List Char → Option (Char × List Char)
  | p, ps, l =>
    match l with
    | [] => none
    | c :: cs =>
      if atom p c then
        match ps with
        | [] => some (c, cs)
        | q :: qs => tryPat atom q qs cs
      else none

/-- Count the matches of the compiled occurrence pattern on one line:
`skip` characters of an already matched occurrence remain to pass over,
`bdy` tells whether a match may start at the current position (the
lookbehind), and a matched occurrence counts only when followed by a
whitespace character (the lookahead).  On a failed attempt the engine
advances one character, which can next succeed only after whitespace. -/
def scanOcc (atom : Char → Char → Bool) (p : Char) (ps : List Char) : Nat → Bool → List Char → Nat
  | _, _, [] => 0
  | Nat.succ k, _, c :: rest => scanOcc atom p ps k (isWs c) rest
  | 0, bdy, c :: rest =>
    if bdy then
      match tryPat atom p ps (c :: rest) with
      | some (_, d :: _) =>
          if isWs d then 1 + scanOcc atom p ps ps.length (isWs c) rest
          else scanOcc atom p ps 0 (isWs c) rest
      | _ => scanOcc atom p ps 0 (isWs c) rest
    else scanOcc atom p ps 0 (isWs c) rest

/-- Matches of the compiled pattern when the stripped target is empty:
the pattern is zero width and matches at every position allowed by the
lookbehind whose next character is whitespace. -/
def countOccEmpty : Bool → List Char → Nat
  | _, [] => 0
  | bdy, c :: rest =>
      (if bdy && isWs c then 1 else 0) + countOccEmpty (isWs c) rest

/-- Sum of a list of natural numbers. -/
def sumN : List Nat → Nat
  | [] => 0
  | n :: ns => n + sumN ns

/-- The pure core of `word_occurrences` on a given file content: strip the
target, compile it unescaped, and add up the number of matches per line.
This embeds the compiled pattern for targets whose stripped form is made of
letters, hyphens and dots only (see `patFragmentOk`): on those `re.compile`
succeeds and the pattern is a chain of one-character atoms.  A stripped
target containing any other regex metacharacter is outside the embedding. -/
def wordOccurrences (w s : List Char) : Nat :=
  match stripWs w with
  | [] => sumN ((splitLines s).map (countOccEmpty true))
  | p :: ps => sumN ((splitLines s).map (scanOcc patAtom p ps 0 true))

/-- Literal occurrence counting as the spec words it: the same boundary
rule and case-insensitivity, but every character of the target taken
literally.  This is the comparison point for the escaping claim. -/
def literalBoundaryCount (w s : List Char) : Nat :=
  match stripWs w with
  | [] => sumN ((splitLines s).map (countOccEmpty true))
  | p :: ps => sumN ((splitLines s).map (scanOcc litAtom p ps 0 true))

/-- Lookbehind flag after passing over a list of characters (true when
the last of them, or the start we came from, allows a match). -/
def bdyAfter (b : Bool) : List Char → Bool
  | [] => b
  | c :: rest => bdyAfter (isWs c) rest

/-- Outcome of a library call: a normal value, or process termination with
the printed lines and the exit status (`sys.exit` inside the except arm). -/
inductive FnResult (α : Type) where
  | ok (val : α)
  | exited (out : List (List Char)) (code : Nat)
deriving DecidableEq

/-- The message printed when `open(path)` raises FileNotFoundError. -/
def notFoundMsg (path : List Char) : List Char :=
  path ++ ": No such file or directory".data

/-- `three_most_common_words` including its I/O behavior: the file system
is a map from paths to contents, `none` meaning the open fails. -/
def threeMostCommonRun (fs : List Char → Option (List Char)) (path : List Char) :
    FnResult (List (List Char)) :=
  match fs path with
  | none => .exited [notFoundMsg path] 1
  | some content => .ok (threeMostCommonWords content)

/-- Stripped targets whose compiled pattern this embedding covers: letters
and hyphens are literal one-character atoms (up to case) and the dot is the
any-character-but-newline atom; `re.compile` succeeds on every string of
these.  On any other character the source's `re.compile` either gives the
pattern further regex semantics or raises re.error — in both cases behavior
this embedding does not model. -/
def patFragmentOk (w : List Char) : Bool :=
  (stripWs w).all (fun c => isAlpha c || decide (c = '-') || decide (c = '.'))

/-- `word_occurrences` including its I/O behavior.  The source compiles the
pattern from the stripped target (line 80) before the try/open, so the
compile step comes first here as well: inside the embedded fragment it
succeeds and only then is the file opened (`none` from the file system
meaning FileNotFoundError).  For a target outside the fragment the compile
step itself is not modeled — it may raise re.error before any file access,
printing no not-found line and returning no count — so the run is `none`. -/
def wordOccurrencesRun (fs : List Char → Option (List Char)) (w path : List Char) :
    Option (FnResult Nat) :=
  if patFragmentOk w then
    some (match fs path with
      | none => .exited [notFoundMsg path] 1
      | some content => .ok (wordOccurrences w content))
  else none

/-- The apostrophe character (kept out of literals on purpose). -/
def apos : Char := Char.ofNat 39

/-- What a whole CLI run prints and the status it exits with. -/
structure CliResult where
  out : List (List Char)
  code : Nat
deriving DecidableEq

/-- The four lines of `print_usage`. -/
def usageLines : List (List Char) :=
  ["Usage: python3 word_analysis.py function [word] file".data,
   "function: either \"common\" or \"occur\"".data,
   " -common : return the 3 most common words in the file".data,
   " -occur : return the number of occurrences of the word in the file".data]

/-- Output of the `common` branch: label line, then the words joined by a
comma and a space. -/
def commonOut (ws : List (List Char)) : List (List Char) :=
  ["Three most common words:".data, List.intercalate ", ".data ws]

/-- Output line of the `occur` branch. -/
def occurOut (w : List Char) (n : Nat) : List (List Char) :=
  [(Nat.repr n).data ++ " occurrences of the word ".data ++ [apos] ++ w ++ [apos]]

/-- Message for an invalid occurrence target. -/
def invalidWordMsg (w : List Char) : List Char :=
  [apos] ++ w ++ [apos] ++ " is not a valid word".data

/-- The `__main__` dispatch of the script: `argv` includes the program name
at index 0, exactly as `sys.argv` does. -/
def mainRun (argv : List (List Char)) (fs : List Char → Option (List Char)) : CliResult :=
  if argv.length < 3 ∨ 4 < argv.length then ⟨usageLines, 1⟩
  else if argv.getD 1 [] = "common".data ∧ argv.length = 3 then
    match threeMostCommonRun fs (argv.getD 2 []) with
    | .exited out code => ⟨out, code⟩
    | .ok ws => ⟨commonOut ws, 0⟩
  else if argv.getD 1 [] = "occur".data ∧ argv.length = 4 then
    if wordIsValid (argv.getD 2 []) = false then ⟨[invalidWordMsg (argv.getD 2 [])], 1⟩
    else
      match wordOccurrencesRun fs (argv.getD 2 []) (argv.getD 3 []) with
      | some (.exited out code) => ⟨out, code⟩
      | some (.ok n) => ⟨occurOut (argv.getD 2 []) n, 0⟩
      | none => ⟨[], 1⟩
      -- the last arm is unreachable: the target was just validated, and a
      -- validated word strips to letters with at most one hyphen, inside the
      -- embedded fragment (`wordIsValid_patFragment` below)
  else ⟨usageLines, 1⟩

/-! Basic facts about the word stream and the tally. -/

lemma wordsOf_eq_map (s : List Char) : wordsOf s = (matchedTokens s).map lowerStr := by
  unfold wordsOf matchedTokens
  generalize splitLines s = L
  induction L with
  | nil => rfl
  | cons l ls ih => simp [concatAll, lineWords, ih]

lemma sumCounts_bump (m : List (List Char × Nat)) (w : List Char) :
    sumCounts (bump m w) = sumCounts m + 1 := by
  induction m with
  | nil => rfl
  | cons x rest ih =>
      obtain ⟨k, n⟩ := x
      by_cases h : k = w <;> simp [bump, h, sumCounts, ih] <;> omega

lemma sumCounts_foldl (ts : List (List Char)) :
    ∀ m, sumCounts (List.foldl bump m ts) = sumCounts m + ts.length := by
  induction ts with
  | nil => intro m; simp
  | cons w ts ih =>
      intro m
      rw [List.foldl_cons, ih, sumCounts_bump]
      simp; omega

lemma lookupCount_bump (m : List (List Char × Nat)) (w v : List Char) :
    lookupCount (bump m w) v = lookupCount m v + (if w = v then 1 else 0) := by
  induction m with
  | nil => by_cases h : w = v <;> simp [bump, lookupCount, h]
  | cons x rest ih =>
      obtain ⟨k, n⟩ := x
      by_cases hk : k = w
      · subst hk
        by_cases hv : k = v <;> simp [bump, lookupCount, hv]
      · by_cases hv : k = v
        · subst hv
          have hwk : ¬w = k := fun h => hk h.symm
          simp [bump, hk, lookupCount, hwk]
        · simp [bump, hk, lookupCount, hv, ih]

lemma lookupCount_foldl (ts : List (List Char)) :
    ∀ m v, lookupCount (List.foldl bump m ts) v = lookupCount m v + countIn ts v := by
  induction ts with
  | nil => intro m v; simp [countIn]
  | cons w ts ih =>
      intro m v
      rw [List.foldl_cons, ih, lookupCount_bump]
      simp [countIn]; omega

lemma countIn_map_lower (l : List (List Char)) (w : List Char) :
    countIn (l.map lowerStr) w =
      (l.filter (fun t => decide (lowerStr t = w))).length := by
  induction l with
  | nil => rfl
  | cons t ts ih =>
      by_cases h : lowerStr t = w <;>
        simp [countIn, List.filter_cons, h, ih] <;> omega

/-- C1: for every file content, the sum of all counts in the frequency table
built by `three_most_common_words` equals the total number of substrings of
the file matched by the word pattern (its boundary rule included). -/
theorem c1_sum_of_counts_eq_match_total (s : List Char) :
    sumCounts (wordTally s) = (matchedTokens s).length := by
  unfold wordTally
  rw [wordsOf_eq_map, sumCounts_foldl]
  simp [sumCounts]

/-- C2 fails on the code: on the file content
"the quick fox the lazy fox the" the result is not the two-element list
["the", "fox"]; the final "the" has no trailing whitespace, so "the" is
tallied twice, not three times, and "quick" and "lazy" also occur, so three
words are returned. -/
theorem c2_counterexample :
    threeMostCommonWords "the quick fox the lazy fox the".data ≠
      ["the".data, "fox".data] ∧
    lookupCount (wordTally "the quick fox the lazy fox the".data) "the".data = 2 := by
  decide

/-- C2 amended: on the file content "the quick fox the lazy fox the" the
function returns ["the", "fox", "quick"]: the final "the" is not counted
(no trailing whitespace), the counts are the=2, fox=2, quick=1, lazy=1 in
first-seen order, and the stable descending sort puts "the" before "fox". -/
theorem c2_amended :
    threeMostCommonWords "the quick fox the lazy fox the".data =
      ["the".data, "fox".data, "quick".data] ∧
    wordTally "the quick fox the lazy fox the".data =
      [("the".data, 2), ("quick".data, 1), ("fox".data, 2), ("lazy".data, 1)] := by
  decide

/-- C5 fails on the code: on "The cat sat. A Cat ran." the call
word_occurrences("cat", path) does not return 1, because matching is
case-insensitive and "Cat" is bounded by spaces on both sides too. -/
theorem c5_counterexample :
    wordOccurrences "cat".data "The cat sat. A Cat ran.".data ≠ 1 := by
  decide

/-- C5 amended: word_occurrences("cat", path) on a file containing
"The cat sat. A Cat ran." returns 2: both the space-bounded "cat" and the
space-bounded "Cat" match (case-insensitively); "sat." and "ran." never
match the compiled pattern. -/
theorem c5_amended :
    wordOccurrences "cat".data "The cat sat. A Cat ran.".data = 2 := by
  decide

/-- C7 fails on the code for the file whose content is exactly "At at AT":
the final "AT" has no trailing whitespace and is not counted, so the count
of "at" is 2, not 3. -/
theorem c7_counterexample :
    wordTally "At at AT".data = [("at".data, 2)] ∧
    lookupCount (wordTally "At at AT".data) "at".data ≠ 3 := by
  decide

/-- C7 amended: counting is case-insensitive — the tally count of a word
`w` is exactly the number of matched substrings whose lowercased form is
`w`, so two tokens are tallied together iff their lowercased forms are
equal — and a file containing "At at AT" followed by whitespace (content
"At at AT\n") yields the single word "at" with count 3; without the
trailing whitespace the final "AT" is not counted and the count is 2. -/
theorem c7_amended :
    (∀ s w, lookupCount (wordTally s) w =
      ((matchedTokens s).filter (fun t => decide (lowerStr t = w))).length) ∧
    wordTally "At at AT\n".data = [("at".data, 3)] := by
  constructor
  · intro s w
    unfold wordTally
    rw [wordsOf_eq_map, lookupCount_foldl, countIn_map_lower]
    simp [lookupCount]
  · decide

/-! Shape of the top-three selection. -/

lemma insertDesc_perm (x : List Char × Nat) (l : List (List Char × Nat)) :
    List.Perm (insertDesc x l) (x :: l) := by
  induction l with
  | nil => exact List.Perm.refl _
  | cons y ys ih =>
      by_cases h : y.2 ≤ x.2
      · simp [insertDesc, h]
      · simp only [insertDesc, h, if_false, Bool.false_eq_true, if_neg, not_false_iff]
        exact (ih.cons y).trans (List.Perm.swap x y ys)

lemma sortDesc_perm (l : List (List Char × Nat)) : List.Perm (sortDesc l) l := by
  induction l with
  | nil => exact List.Perm.refl _
  | cons x xs ih => exact (insertDesc_perm x (sortDesc xs)).trans (ih.cons x)

lemma sortDesc_length (l : List (List Char × Nat)) :
    (sortDesc l).length = l.length :=
  (sortDesc_perm l).length_eq

lemma bump_keys (m : List (List Char × Nat)) (w : List Char) :
    (bump m w).map Prod.fst =
      if w ∈ m.map Prod.fst then m.map Prod.fst else m.map Prod.fst ++ [w] := by
  induction m with
  | nil => simp [bump]
  | cons x rest ih =>
      obtain ⟨k, n⟩ := x
      by_cases h : k = w
      · subst h; simp [bump]
      · have hwk : ¬ w = k := fun hh => h hh.symm
        by_cases hm : w ∈ rest.map Prod.fst <;>
          simp [bump, h, ih, hwk, hm]

lemma foldl_bump_keys_nodup (ts : List (List Char)) :
    ∀ m, (m.map Prod.fst).Nodup → ((List.foldl bump m ts).map Prod.fst).Nodup := by
  induction ts with
  | nil => intro m h; simpa using h
  | cons w ts ih =>
      intro m h
      rw [List.foldl_cons]
      apply ih
      rw [bump_keys]
      by_cases hm : w ∈ m.map Prod.fst <;> simp [hm, h]
      simp [List.nodup_append, h, hm]

lemma wordTally_keys_nodup (s : List Char) : ((wordTally s).map Prod.fst).Nodup :=
  foldl_bump_keys_nodup _ [] (by simp)

lemma mem_insertDesc (z x : List Char × Nat) (l : List (List Char × Nat)) :
    z ∈ insertDesc x l ↔ z = x ∨ z ∈ l := by
  rw [(insertDesc_perm x l).mem_iff]; simp

lemma pairwise_insertDesc (x : List Char × Nat) (l : List (List Char × Nat))
    (h : List.Pairwise (fun a b => b.2 ≤ a.2) l) :
    List.Pairwise (fun a b => b.2 ≤ a.2) (insertDesc x l) := by
  induction l with
  | nil => simp [insertDesc]
  | cons y ys ih =>
      rcases List.pairwise_cons.mp h with ⟨hy, hys⟩
      by_cases hc : y.2 ≤ x.2
      · simp only [insertDesc, hc, if_true]
        refine List.pairwise_cons.mpr ⟨?_, h⟩
        intro z hz
        rcases List.mem_cons.mp hz with rfl | hz'
        · exact hc
        · exact le_trans (hy z hz') hc
      · simp only [insertDesc, hc, if_false, if_neg, not_false_iff]
        refine List.pairwise_cons.mpr ⟨?_, ih hys⟩
        intro z hz
        rcases (mem_insertDesc z x ys).mp hz with rfl | hz'
        · omega
        · exact hy z hz'

lemma pairwise_sortDesc (l : List (List Char × Nat)) :
    List.Pairwise (fun a b => b.2 ≤ a.2) (sortDesc l) := by
  induction l with
  | nil => simp [sortDesc]
  | cons x xs ih => exact pairwise_insertDesc x _ ih

/-- C6: for every file content the result of `three_most_common_words` has
`min 3 d` entries where `d` is the number of distinct words, the underlying
pairs are ordered by descending count, the returned words are distinct, with
fewer than three distinct words all of them are returned, and an empty file
(or any file without valid words) gives the empty list. -/
theorem c6_top_three_contract (s : List Char) :
    (threeMostCommonWords s).length = min 3 (wordTally s).length ∧
    List.Pairwise (fun a b => b.2 ≤ a.2) ((sortedTally s).take 3) ∧
    (threeMostCommonWords s).Nodup ∧
    ((wordTally s).length ≤ 3 →
      ∀ w, w ∈ threeMostCommonWords s ↔ w ∈ (wordTally s).map Prod.fst) ∧
    threeMostCommonWords [] = [] ∧
    (wordsOf s = [] → threeMostCommonWords s = []) := by
  refine ⟨?_, ?_, ?_, ?_, by decide, ?_⟩
  · unfold threeMostCommonWords
    rw [List.length_map, List.length_take]
    unfold sortedTally
    rw [sortDesc_length]
  · exact List.Pairwise.sublist (List.take_sublist _ _) (pairwise_sortDesc _)
  · unfold threeMostCommonWords
    rw [List.map_take]
    apply List.Nodup.sublist (List.take_sublist _ _)
    have hperm : List.Perm ((sortedTally s).map Prod.fst) ((wordTally s).map Prod.fst) :=
      (sortDesc_perm (wordTally s)).map Prod.fst
    exact hperm.nodup_iff.mpr (wordTally_keys_nodup s)
  · intro hlen w
    have hfull : (sortedTally s).take 3 = sortedTally s := by
      apply List.take_of_length_le
      rw [sortedTally, sortDesc_length]; exact hlen
    unfold threeMostCommonWords
    rw [hfull]
    constructor
    · intro hw
      rcases List.mem_map.mp hw with ⟨z, hz, rfl⟩
      exact List.mem_map.mpr ⟨z, (sortDesc_perm (wordTally s)).mem_iff.mp hz, rfl⟩
    · intro hw
      rcases List.mem_map.mp hw with ⟨z, hz, rfl⟩
      exact List.mem_map.mpr ⟨z, (sortDesc_perm (wordTally s)).mem_iff.mpr hz, rfl⟩
  · intro h
    unfold threeMostCommonWords sortedTally wordTally
    rw [h]
    rfl

/-- C6 witness at the content "b a b\n". -/
theorem c6_top_three_contract_witness :
    (threeMostCommonWords "b a b\n".data).length =
      min 3 (wordTally "b a b\n".data).length ∧
    ("a".data ∈ threeMostCommonWords "b a b\n".data ↔
      "a".data ∈ (wordTally "b a b\n".data).map Prod.fst) :=
  ⟨(c6_top_three_contract "b a b\n".data).1,
   (c6_top_three_contract "b a b\n".data).2.2.2.1 (by decide) "a".data⟩

/-! The per-line scan, the whole-content scan, and grammar tokens. -/

lemma ws_char_cases (c : Char) (h : isWs c = true) :
    c = ' ' ∨ c = '\t' ∨ c = '\n' ∨ c = '\r' ∨ c = '\x0b' ∨ c = '\x0c' := by
  simpa [isWs] using h

lemma ws_not_alpha (c : Char) (h : isWs c = true) : isAlpha c = false := by
  rcases ws_char_cases c h with rfl | rfl | rfl | rfl | rfl | rfl <;> decide

lemma ws_not_hyphen (c : Char) (h : isWs c = true) : c ≠ '-' := by
  rcases ws_char_cases c h with rfl | rfl | rfl | rfl | rfl | rfl <;> decide

lemma stepNext_ws (st : ScanState) (c : Char) (h : isWs c = true) :
    stepNext st c = .idle true := by
  cases st with
  | idle b => simp [stepNext, ws_not_alpha c h, h]
  | tok1 acc => simp [stepNext, ws_not_alpha c h, ws_not_hyphen c h, h]
  | tok2 acc => simp [stepNext, ws_not_alpha c h, h]

lemma stepEmit_not_ws (st : ScanState) (c : Char) (h : isWs c = false) :
    stepEmit st c = [] := by
  cases st <;> simp [stepEmit, h]

lemma scanLine_append (a : List Char) :
    ∀ (st : ScanState) (b : List Char),
      scanLine st (a ++ b) = scanLine st a ++ scanLine (a.foldl stepNext st) b := by
  induction a with
  | nil => intro st b; simp [scanLine]
  | cons c a ih => intro st b; simp [scanLine, ih, List.foldl_cons]

lemma foldl_stepNext_last_ws (l : List Char) (c : Char) (st : ScanState)
    (h : isWs c = true) : (l ++ [c]).foldl stepNext st = .idle true := by
  rw [List.foldl_append]
  simp [stepNext_ws _ c h]

lemma foldl_stepNext_boundary (p : List Char)
    (hp : p = [] ∨ ∃ q c, p = q ++ [c] ∧ isWs c = true) :
    p.foldl stepNext (.idle true) = .idle true := by
  rcases hp with rfl | ⟨q, c, rfl, hc⟩
  · rfl
  · exact foldl_stepNext_last_ws q c _ hc

lemma scanLine_no_ws (l : List Char) :
    ∀ st, (∀ c ∈ l, isWs c = false) → scanLine st l = [] := by
  induction l with
  | nil => intro st _; rfl
  | cons c rest ih =>
      intro st h
      have hc : isWs c = false := h c (by simp)
      simp [scanLine, stepEmit_not_ws st c hc]
      exact ih _ (fun d hd => h d (by simp [hd]))

lemma splitLinesAux_scan (s : List Char) :
    ∀ cur, concatAll ((splitLinesAux cur s).map findWords) =
      scanLine (.idle true) (cur ++ s) := by
  induction s with
  | nil =>
      intro cur
      by_cases h : cur = []
      · simp [splitLinesAux, h, concatAll, scanLine]
      · simp [splitLinesAux, h, concatAll, findWords]
  | cons c rest ih =>
      intro cur
      by_cases h : c = '\n'
      · subst h
        rw [show splitLinesAux cur ('\n' :: rest) =
              (cur ++ ['\n']) :: splitLinesAux [] rest from by simp [splitLinesAux]]
        rw [List.map_cons]
        rw [show concatAll (findWords (cur ++ ['\n']) ::
              (splitLinesAux [] rest).map findWords) =
            findWords (cur ++ ['\n']) ++
              concatAll ((splitLinesAux [] rest).map findWords) from rfl]
        have hih := ih []
        rw [List.nil_append] at hih
        rw [hih]
        rw [show cur ++ '\n' :: rest = (cur ++ ['\n']) ++ rest from by simp]
        rw [scanLine_append (cur ++ ['\n']), foldl_stepNext_last_ws cur '\n' _ (by decide)]
        rfl
      · rw [show splitLinesAux cur (c :: rest) = splitLinesAux (cur ++ [c]) rest
              from by simp [splitLinesAux, h]]
        rw [ih (cur ++ [c])]
        simp

lemma matchedTokens_eq_scan (s : List Char) :
    matchedTokens s = scanLine (.idle true) s := by
  have h := splitLinesAux_scan s []
  simpa [matchedTokens, splitLines] using h

lemma wordsOf_eq_scan (s : List Char) :
    wordsOf s = (scanLine (.idle true) s).map lowerStr := by
  rw [wordsOf_eq_map, matchedTokens_eq_scan]

lemma allAlpha_chars (w : List Char) (h : allAlpha w = true) :
    ∀ c ∈ w, isAlpha c = true := by
  induction w with
  | nil => simp
  | cons c rest ih =>
      simp only [allAlpha, Bool.and_eq_true] at h
      intro d hd
      rcases List.mem_cons.mp hd with rfl | hd'
      · exact h.1
      · exact ih h.2 d hd'

lemma after1_chars (w : List Char) (h : after1 w = true) :
    ∀ c ∈ w, isAlpha c = true ∨ c = '-' := by
  induction w with
  | nil => simp
  | cons c rest ih =>
      intro d hd
      simp only [after1] at h
      by_cases hc : isAlpha c = true
      · rw [if_pos hc] at h
        rcases List.mem_cons.mp hd with rfl | hd'
        · exact Or.inl hc
        · exact ih h d hd'
      · rw [if_neg hc] at h
        by_cases hh : c = '-'
        · rw [if_pos hh] at h
          rcases List.mem_cons.mp hd with rfl | hd'
          · exact Or.inr hh
          · exact Or.inl (allAlpha_chars rest h d hd')
        · rw [if_neg hh] at h
          exact absurd h (by simp)

lemma grammar_chars (w : List Char) (h : grammarMatch w = true) :
    ∀ c ∈ w, isAlpha c = true ∨ c = '-' := by
  cases w with
  | nil => simp
  | cons c rest =>
      simp only [grammarMatch, Bool.and_eq_true] at h
      intro d hd
      rcases List.mem_cons.mp hd with rfl | hd'
      · exact Or.inl h.1
      · exact after1_chars rest h.2 d hd'

lemma alpha_or_hyphen_not_ws (c : Char) (h : isAlpha c = true ∨ c = '-') :
    isWs c = false := by
  by_cases hw : isWs c = true
  · rcases h with h | rfl
    · rw [ws_not_alpha c hw] at h
      exact absurd h (by simp)
    · exact absurd rfl (ws_not_hyphen _ hw)
  · simpa using hw

lemma grammar_no_ws (w : List Char) (h : grammarMatch w = true) :
    ∀ c ∈ w, isWs c = false :=
  fun c hc => alpha_or_hyphen_not_ws c (grammar_chars w h c hc)

lemma scanLine_tok2 (w2 : List Char) :
    ∀ acc d rest, allAlpha w2 = true → isWs d = true →
      scanLine (.tok2 acc) (w2 ++ d :: rest) =
        (acc ++ w2) :: scanLine (.idle true) rest := by
  induction w2 with
  | nil =>
      intro acc d rest _ hd
      simp [scanLine, stepEmit, stepNext, ws_not_alpha d hd, hd]
  | cons c w2 ih =>
      intro acc d rest h hd
      simp only [allAlpha, Bool.and_eq_true] at h
      simp [scanLine, stepEmit, stepNext, h.1, ih (acc ++ [c]) d rest h.2 hd]

lemma scanLine_tok1 (w2 : List Char) :
    ∀ acc d rest, after1 w2 = true → isWs d = true →
      scanLine (.tok1 acc) (w2 ++ d :: rest) =
        (acc ++ w2) :: scanLine (.idle true) rest := by
  induction w2 with
  | nil =>
      intro acc d rest _ hd
      simp [scanLine, stepEmit, stepNext, ws_not_alpha d hd, ws_not_hyphen d hd, hd]
  | cons c w2 ih =>
      intro acc d rest h hd
      simp only [after1] at h
      by_cases hc : isAlpha c = true
      · rw [if_pos hc] at h
        simp [scanLine, stepEmit, stepNext, hc, ih (acc ++ [c]) d rest h hd]
      · rw [if_neg hc] at h
        by_cases hh : c = '-'
        · rw [if_pos hh] at h
          subst hh
          simp [scanLine, stepEmit, stepNext, hc,
            scanLine_tok2 w2 (acc ++ ['-']) d rest h hd]
        · rw [if_neg hh] at h
          exact absurd h (by simp)

lemma scanLine_grammar_head (w : List Char) (d : Char) (rest : List Char)
    (hw : grammarMatch w = true) (hd : isWs d = true) :
    scanLine (.idle true) (w ++ d :: rest) = w :: scanLine (.idle true) rest := by
  cases w with
  | nil => simp [grammarMatch] at hw
  | cons c w2 =>
      simp only [grammarMatch, Bool.and_eq_true] at hw
      have hstep : scanLine (.idle true) ((c :: w2) ++ d :: rest)
          = scanLine (.tok1 [c]) (w2 ++ d :: rest) := by
        simp [scanLine, stepEmit, stepNext, hw.1]
      rw [hstep, scanLine_tok1 w2 [c] d rest hw.2 hd]
      rfl

/-! The occurrence scanner: matching, skipping, and decomposition. -/

lemma append_eq_append_of_le {α : Type} :
    ∀ (a b c d : List α), a ++ b = c ++ d → a.length ≤ c.length →
      ∃ t, c = a ++ t ∧ b = t ++ d := by
  intro a
  induction a with
  | nil => intro b c d h _; exact ⟨c, rfl, by simpa using h⟩
  | cons x a' ih =>
      intro b c d h hl
      cases c with
      | nil => simp at hl
      | cons y c' =>
          simp only [List.cons_append, List.cons.injEq] at h
          obtain ⟨rfl, h2⟩ := h
          obtain ⟨t, rfl, hb⟩ := ih b c' d h2 (by simpa using hl)
          exact ⟨t, rfl, hb⟩

lemma tryPat_some_ext (atom : Char → Char → Bool) :
    ∀ (ps : List Char) (p : Char) (l q : List Char) (lc : Char) (aft : List Char),
      tryPat atom p ps l = some (lc, aft) →
      tryPat atom p ps (l ++ q) = some (lc, aft ++ q) := by
  intro ps
  induction ps with
  | nil =>
      intro p l q lc aft h
      cases l with
      | nil => simp [tryPat] at h
      | cons c cs =>
          simp only [tryPat] at h ⊢
          by_cases hac : atom p c = true
          · rw [if_pos hac] at h
            simp only [Option.some.injEq, Prod.mk.injEq] at h
            obtain ⟨rfl, rfl⟩ := h
            simp [hac]
          · rw [if_neg hac] at h; cases h
  | cons q1 qs ih =>
      intro p l qq lc aft h
      cases l with
      | nil => simp [tryPat] at h
      | cons c cs =>
          simp only [tryPat] at h ⊢
          by_cases hac : atom p c = true
          · rw [if_pos hac] at h
            simp [hac, ih q1 cs qq lc aft h]
          · rw [if_neg hac] at h; cases h

lemma tryPat_some_decomp (atom : Char → Char → Bool) :
    ∀ (ps : List Char) (p : Char) (l : List Char) (lc : Char) (aft : List Char),
      tryPat atom p ps l = some (lc, aft) →
      ∃ m, l = m ++ aft ∧ m.length = ps.length + 1 ∧
        (∀ c ∈ m, ∃ a, (a = p ∨ a ∈ ps) ∧ atom a c = true) := by
  intro ps
  induction ps with
  | nil =>
      intro p l lc aft h
      cases l with
      | nil => simp [tryPat] at h
      | cons c cs =>
          simp only [tryPat] at h
          by_cases hac : atom p c = true
          · rw [if_pos hac] at h
            simp only [Option.some.injEq, Prod.mk.injEq] at h
            obtain ⟨rfl, rfl⟩ := h
            refine ⟨[c], rfl, rfl, ?_⟩
            intro d hd
            rcases List.mem_singleton.mp hd with rfl
            exact ⟨p, Or.inl rfl, hac⟩
          · rw [if_neg hac] at h; cases h
  | cons q1 qs ih =>
      intro p l lc aft h
      cases l with
      | nil => simp [tryPat] at h
      | cons c cs =>
          simp only [tryPat] at h
          by_cases hac : atom p c = true
          · rw [if_pos hac] at h
            obtain ⟨m, rfl, hlen, hm⟩ := ih q1 cs lc aft h
            refine ⟨c :: m, rfl, by simp [hlen], ?_⟩
            intro d hd
            rcases List.mem_cons.mp hd with rfl | hd'
            · exact ⟨p, Or.inl rfl, hac⟩
            · obtain ⟨a, ha, hat⟩ := hm d hd'
              refine ⟨a, ?_, hat⟩
              rcases ha with rfl | ha'
              · exact Or.inr (by simp)
              · exact Or.inr (by simp [ha'])
          · rw [if_neg hac] at h; cases h

lemma tryPat_none_cases (atom : Char → Char → Bool) :
    ∀ (ps : List Char) (p : Char) (l q : List Char),
      tryPat atom p ps l = none →
      tryPat atom p ps (l ++ q) = none ∨ l.length < ps.length + 1 := by
  intro ps
  induction ps with
  | nil =>
      intro p l q h
      cases l with
      | nil => right; simp
      | cons c cs =>
          simp only [tryPat] at h ⊢
          by_cases hac : atom p c = true
          · rw [if_pos hac] at h; cases h
          · left; simp [hac]
  | cons q1 qs ih =>
      intro p l q h
      cases l with
      | nil => right; simp
      | cons c cs =>
          simp only [tryPat] at h ⊢
          by_cases hac : atom p c = true
          · rw [if_pos hac] at h
            rcases ih q1 cs q h with h' | h'
            · left; simp [hac, h']
            · right; simpa using Nat.succ_lt_succ h'
          · left; simp [hac]

lemma scanOcc_no_ws (atom : Char → Char → Bool) (p : Char) (ps : List Char) :
    ∀ (l : List Char) k b, (∀ c ∈ l, isWs c = false) →
      scanOcc atom p ps k b l = 0 := by
  intro l
  induction l with
  | nil => intro k b _; simp [scanOcc]
  | cons c rest ih =>
      intro k b h
      have hrest : ∀ d ∈ rest, isWs d = false := fun d hd => h d (by simp [hd])
      cases k with
      | succ k2 => simpa [scanOcc] using ih k2 (isWs c) hrest
      | zero =>
          by_cases hb : b = true
          · subst hb
            cases htp : tryPat atom p ps (c :: rest) with
            | none => simpa [scanOcc, htp] using ih 0 (isWs c) hrest
            | some pr =>
                obtain ⟨lc, aft⟩ := pr
                cases aft with
                | nil => simpa [scanOcc, htp] using ih 0 (isWs c) hrest
                | cons d aft2 =>
                    have hdmem : d ∈ c :: rest := by
                      obtain ⟨m, he, _, _⟩ := tryPat_some_decomp atom ps p _ lc _ htp
                      rw [he]
                      exact List.mem_append.mpr (Or.inr (by simp))
                    have hd : isWs d = false := h d hdmem
                    simpa [scanOcc, htp, hd] using ih 0 (isWs c) hrest
          · have hb' : b = false := by simpa using hb
            subst hb'
            simpa [scanOcc] using ih 0 (isWs c) hrest

lemma scanOcc_append_wsfree (atom : Char → Char → Bool) (p : Char) (ps : List Char)
    (w' : List Char) (hw : ∀ c ∈ w', isWs c = false) :
    ∀ (P : List Char) k b,
      scanOcc atom p ps k b (P ++ w') = scanOcc atom p ps k b P := by
  intro P
  induction P with
  | nil =>
      intro k b
      simpa [scanOcc] using scanOcc_no_ws atom p ps w' k b hw
  | cons c P' ih =>
      intro k b
      cases k with
      | succ k2 => simpa [scanOcc] using ih k2 (isWs c)
      | zero =>
          by_cases hb : b = true
          · subst hb
            cases htp : tryPat atom p ps (c :: P') with
            | some pr =>
                obtain ⟨lc, aft⟩ := pr
                have hext := tryPat_some_ext atom ps p (c :: P') w' lc aft htp
                simp only [List.cons_append] at hext
                cases aft with
                | cons d aft2 =>
                    by_cases hd : isWs d = true
                    · simp [scanOcc, htp, hext, hd, ih]
                    · have hd' : isWs d = false := by simpa using hd
                      simp [scanOcc, htp, hext, hd', ih]
                | nil =>
                    cases hwnil : w' with
                    | nil => simp
                    | cons e w2 =>
                        have he : isWs e = false := hw e (by simp [hwnil])
                        rw [hwnil] at hext
                        simp [scanOcc, htp, hext, he, ih, hwnil]
                        rw [← hwnil]
                        exact ih 0 (isWs c)
            | none =>
                rcases tryPat_none_cases atom ps p (c :: P') w' htp with hn | hlen
                · simp only [List.cons_append] at hn
                  simp [scanOcc, htp, hn, ih]
                · cases htp2 : tryPat atom p ps ((c :: P') ++ w') with
                  | none => simp at htp2; simp [scanOcc, htp, htp2, ih]
                  | some pr =>
                      obtain ⟨lc, aft'⟩ := pr
                      obtain ⟨m, he, hml, _⟩ :=
                        tryPat_some_decomp atom ps p _ lc aft' htp2
                      obtain ⟨t, rfl, hw'⟩ :=
                        append_eq_append_of_le (c :: P') w' m aft' he (by
                          simp only [List.length_cons] at hlen ⊢; omega)
                      simp only [List.cons_append] at htp2
                      cases aft' with
                      | nil => simp [scanOcc, htp, htp2, ih]
                      | cons d aft2 =>
                          have hd : isWs d = false := hw d (by rw [hw']; simp)
                          simp [scanOcc, htp, htp2, hd, ih]
          · have hb' : b = false := by simpa using hb
            subst hb'
            simpa [scanOcc] using ih 0 (isWs c)

lemma matched_bar_free (bar : Char → Bool) (atom : Char → Char → Bool)
    (p : Char) (ps : List Char)
    (hpat : ∀ a, (a = p ∨ a ∈ ps) → ∀ c, bar c = true → atom a c = false)
    (m : List Char)
    (hmc : ∀ c ∈ m, ∃ a, (a = p ∨ a ∈ ps) ∧ atom a c = true) :
    ∀ d ∈ m, bar d = false := by
  intro d hd
  by_cases hbd : bar d = true
  · obtain ⟨a, ha, hat⟩ := hmc d hd
    rw [hpat a ha d hbd] at hat
    exact absurd hat (by simp)
  · simpa using hbd

lemma scanOcc_append_barrier (bar : Char → Bool) (atom : Char → Char → Bool)
    (p : Char) (ps : List Char)
    (hpat : ∀ a, (a = p ∨ a ∈ ps) → ∀ c, bar c = true → atom a c = false)
    (hws : ∀ c, bar c = true → isWs c = true) (q : List Char) :
    ∀ (P : List Char) k b,
      (∀ c ∈ P.take k, bar c = false) →
      (∃ P0 c0, P = P0 ++ [c0] ∧ bar c0 = true) →
      scanOcc atom p ps k b (P ++ q) =
        scanOcc atom p ps k b P + scanOcc atom p ps 0 true q := by
  intro P
  induction P with
  | nil =>
      intro k b _ hlast
      obtain ⟨P0, c0, he, _⟩ := hlast
      cases P0 <;> simp at he
  | cons c P' ih =>
      intro k b hk hlast
      obtain ⟨P0, c0, he, hc0⟩ := hlast
      cases P0 with
      | nil =>
          simp only [List.nil_append, List.cons.injEq] at he
          obtain ⟨rfl, rfl⟩ := he
          have hwsc : isWs c = true := hws c hc0
          cases k with
          | succ k2 =>
              have hcf : bar c = false := hk c (by simp [List.take_succ_cons])
              rw [hc0] at hcf
              exact absurd hcf (by simp)
          | zero =>
              have hpc : atom p c = false := hpat p (Or.inl rfl) c hc0
              have htpq : tryPat atom p ps (c :: q) = none := by
                cases ps <;> simp [tryPat, hpc]
              have htpc : tryPat atom p ps [c] = none := by
                cases ps <;> simp [tryPat, hpc]
              by_cases hb : b = true
              · subst hb
                simp [scanOcc, htpq, htpc, hwsc]
              · have hb' : b = false := by simpa using hb
                subst hb'
                simp [scanOcc, hwsc]
      | cons x P0' =>
          simp only [List.cons_append, List.cons.injEq] at he
          obtain ⟨rfl, hP'⟩ := he
          have hlast' : ∃ Q0 d0, P' = Q0 ++ [d0] ∧ bar d0 = true :=
            ⟨P0', c0, hP', hc0⟩
          cases k with
          | succ k2 =>
              have hk' : ∀ d ∈ P'.take k2, bar d = false := fun d hd =>
                hk d (by rw [List.take_succ_cons]; exact List.mem_cons.mpr (Or.inr hd))
              simpa [scanOcc] using ih k2 (isWs c) hk' hlast'
          | zero =>
              by_cases hb : b = true
              case neg =>
                have hb' : b = false := by simpa using hb
                subst hb'
                simpa [scanOcc] using ih 0 (isWs c) (by simp) hlast'
              case pos =>
              subst hb
              cases htp : tryPat atom p ps (c :: P') with
              | some pr =>
                  obtain ⟨lc, aft⟩ := pr
                  have hext := tryPat_some_ext atom ps p (c :: P') q lc aft htp
                  simp only [List.cons_append] at hext
                  obtain ⟨m, hme, hml, hmc⟩ := tryPat_some_decomp atom ps p _ lc aft htp
                  have hmbar := matched_bar_free bar atom p ps hpat m hmc
                  cases aft with
                  | nil =>
                      exfalso
                      have hc0m : c0 ∈ m := by
                        rw [List.append_nil] at hme
                        rw [← hme]
                        simp [hP']
                      have hcf := hmbar c0 hc0m
                      rw [hc0] at hcf
                      exact absurd hcf (by simp)
                  | cons d aft2 =>
                      by_cases hd : isWs d = true
                      · cases m with
                        | nil => simp at hml
                        | cons c1 m1 =>
                            simp only [List.cons_append, List.cons.injEq] at hme
                            obtain ⟨rfl, hP'2⟩ := hme
                            have hm1len : m1.length = ps.length := by simpa using hml
                            have hk2 : ∀ x2 ∈ P'.take ps.length, bar x2 = false := by
                              intro x2 hx2
                              apply hmbar
                              rw [hP'2, ← hm1len, List.take_left] at hx2
                              exact List.mem_cons.mpr (Or.inr hx2)
                            have hih := ih ps.length (isWs c) hk2 hlast'
                            simp [scanOcc, htp, hext, hd, hih, Nat.add_assoc]
                      · have hd' : isWs d = false := by simpa using hd
                        have hih := ih 0 (isWs c) (by simp) hlast'
                        simp [scanOcc, htp, hext, hd', hih]
              | none =>
                  rcases tryPat_none_cases atom ps p (c :: P') q htp with hn | hlen
                  · simp only [List.cons_append] at hn
                    have hih := ih 0 (isWs c) (by simp) hlast'
                    simp [scanOcc, htp, hn, hih]
                  · cases htp2 : tryPat atom p ps ((c :: P') ++ q) with
                    | none =>
                        simp only [List.cons_append] at htp2
                        have hih := ih 0 (isWs c) (by simp) hlast'
                        simp [scanOcc, htp, htp2, hih]
                    | some pr =>
                        exfalso
                        obtain ⟨lc, aft'⟩ := pr
                        obtain ⟨m, hme, hml, hmc⟩ :=
                          tryPat_some_decomp atom ps p _ lc aft' htp2
                        have hmbar := matched_bar_free bar atom p ps hpat m hmc
                        obtain ⟨t, hmt, -⟩ :=
                          append_eq_append_of_le (c :: P') q m aft' hme (by
                            simp only [List.length_cons] at hlen ⊢; omega)
                        have hc0m : c0 ∈ m := by rw [hmt]; simp [hP']
                        have hcf := hmbar c0 hc0m
                        rw [hc0] at hcf
                        exact absurd hcf (by simp)

/-! Character-class facts for the compiled occurrence pattern. -/

lemma ws_asciiLower (c : Char) (h : isWs c = true) : asciiLower c = c := by
  rcases ws_char_cases c h with rfl | rfl | rfl | rfl | rfl | rfl <;> decide

lemma alpha_ne_dot (a : Char) (h : isAlpha a = true) : a ≠ '.' := by
  intro he; subst he; exact absurd h (by decide)

lemma isAlpha_asciiLower (a : Char) (h : isAlpha a = true) :
    isAlpha (asciiLower a) = true := by
  simp only [isAlpha, decide_eq_true_eq] at h
  rcases h with ⟨h1, h2⟩ | ⟨h1, h2⟩
  · have hno : ¬('A' ≤ a ∧ a ≤ 'Z') := by
      rintro ⟨-, hz⟩
      exact absurd (le_trans h1 hz) (by decide)
    rw [asciiLower, if_neg hno]
    simp only [isAlpha, decide_eq_true_eq]
    exact Or.inl ⟨h1, h2⟩
  · rw [asciiLower, if_pos ⟨h1, h2⟩]
    have hn1 : 65 ≤ a.toNat := h1
    have hn2 : a.toNat ≤ 90 := h2
    have key : ∀ n, n < 91 → 65 ≤ n → isAlpha (Char.ofNat (n + 32)) = true := by
      decide
    exact key a.toNat (by omega) hn1

lemma patAtom_self (a : Char) (h : isAlpha a = true ∨ a = '-') :
    patAtom a a = true := by
  rcases h with h | rfl
  · simp [patAtom, alpha_ne_dot a h]
  · decide

lemma patAtom_ws (a c : Char) (ha : isAlpha a = true ∨ a = '-')
    (hc : isWs c = true) : patAtom a c = false := by
  rcases ha with ha | rfl
  · rw [patAtom, if_neg (alpha_ne_dot a ha), ws_asciiLower c hc]
    simp only [decide_eq_false_iff_not]
    intro he
    have halp : isAlpha c = true := he ▸ isAlpha_asciiLower a ha
    rw [ws_not_alpha c hc] at halp
    exact absurd halp (by simp)
  · rcases ws_char_cases c hc with rfl | rfl | rfl | rfl | rfl | rfl <;> decide

lemma tryPat_self (atom : Char → Char → Bool) :
    ∀ (ps : List Char) (p : Char) (t : List Char),
      (∀ a, (a = p ∨ a ∈ ps) → atom a a = true) →
      ∃ lc, tryPat atom p ps ((p :: ps) ++ t) = some (lc, t) := by
  intro ps
  induction ps with
  | nil =>
      intro p t h
      exact ⟨p, by simp [tryPat, h p (Or.inl rfl)]⟩
  | cons q qs ih =>
      intro p t h
      obtain ⟨lc, hlc⟩ := ih q t (fun a ha => h a (by
        rcases ha with rfl | ha'
        · exact Or.inr (by simp)
        · exact Or.inr (by simp [ha'])))
      refine ⟨lc, ?_⟩
      simpa [tryPat, h p (Or.inl rfl)] using hlc

lemma scanOcc_skip_all (atom : Char → Char → Bool) (p : Char) (ps : List Char) :
    ∀ (l : List Char) b r,
      scanOcc atom p ps l.length b (l ++ r) = scanOcc atom p ps 0 (bdyAfter b l) r := by
  intro l
  induction l with
  | nil => intro b r; simp [bdyAfter]
  | cons c l ih => intro b r; simpa [scanOcc, bdyAfter] using ih (isWs c) r

lemma bdyAfter_wsfree (l : List Char) :
    ∀ b, (∀ c ∈ l, isWs c = false) → b = false → bdyAfter b l = false := by
  induction l with
  | nil => intro b _ hb; simpa [bdyAfter] using hb
  | cons c l ih =>
      intro b h _
      simp only [bdyAfter]
      exact ih (isWs c) (fun d hd => h d (by simp [hd])) (h c (by simp))

lemma scanOcc_token_end (p : Char) (ps : List Char)
    (hch : ∀ a, (a = p ∨ a ∈ ps) → isAlpha a = true ∨ a = '-') :
    scanOcc patAtom p ps 0 true ((p :: ps) ++ ['\n']) = 1 := by
  obtain ⟨lc, hself⟩ :=
    tryPat_self patAtom ps p ['\n'] (fun a ha => patAtom_self a (hch a ha))
  simp only [List.cons_append] at hself
  have hwsp : isWs p = false := alpha_or_hyphen_not_ws p (hch p (Or.inl rfl))
  have hskip : scanOcc patAtom p ps ps.length (isWs p) (ps ++ ['\n']) = 0 := by
    rw [scanOcc_skip_all patAtom p ps ps (isWs p) ['\n']]
    have hb : bdyAfter (isWs p) ps = false :=
      bdyAfter_wsfree ps (isWs p)
        (fun d hd => alpha_or_hyphen_not_ws d (hch d (Or.inr hd))) hwsp
    rw [hb]
    simp [scanOcc]
  have hnlws : isWs '\n' = true := by decide
  simp [scanOcc, hself, hskip, hnlws]

lemma sumN_scanOcc_lines (atom : Char → Char → Bool) (p : Char) (ps : List Char)
    (hnl : ∀ a, (a = p ∨ a ∈ ps) → atom a '\n' = false) (s : List Char) :
    ∀ cur, sumN ((splitLinesAux cur s).map (scanOcc atom p ps 0 true)) =
      scanOcc atom p ps 0 true (cur ++ s) := by
  have hbar := scanOcc_append_barrier (fun x => decide (x = '\n')) atom p ps
      (fun a ha c hc => by
        have hcn : c = '\n' := by simpa using hc
        subst hcn; exact hnl a ha)
      (fun c hc => by
        have hcn : c = '\n' := by simpa using hc
        subst hcn; decide)
  induction s with
  | nil =>
      intro cur
      by_cases h : cur = []
      · simp [splitLinesAux, h, sumN, scanOcc]
      · simp [splitLinesAux, h, sumN]
  | cons c rest ih =>
      intro cur
      by_cases h : c = '\n'
      · subst h
        rw [show splitLinesAux cur ('\n' :: rest) =
              (cur ++ ['\n']) :: splitLinesAux [] rest from by simp [splitLinesAux]]
        rw [List.map_cons]
        rw [show sumN (scanOcc atom p ps 0 true (cur ++ ['\n']) ::
              (splitLinesAux [] rest).map (scanOcc atom p ps 0 true)) =
            scanOcc atom p ps 0 true (cur ++ ['\n']) +
              sumN ((splitLinesAux [] rest).map (scanOcc atom p ps 0 true)) from rfl]
        have hih := ih []
        rw [List.nil_append] at hih
        rw [hih]
        rw [show cur ++ '\n' :: rest = (cur ++ ['\n']) ++ rest from by simp]
        rw [hbar rest (cur ++ ['\n']) 0 true (by simp) ⟨cur, '\n', rfl, by simp⟩]
      · rw [show splitLinesAux cur (c :: rest) = splitLinesAux (cur ++ [c]) rest
              from by simp [splitLinesAux, h]]
        rw [ih (cur ++ [c])]
        simp

lemma wordOccurrences_eq_scan (tgt s : List Char) (p : Char) (ps : List Char)
    (hsw : stripWs tgt = p :: ps)
    (hnl : ∀ a, (a = p ∨ a ∈ ps) → patAtom a '\n' = false) :
    wordOccurrences tgt s = scanOcc patAtom p ps 0 true s := by
  simp only [wordOccurrences, hsw]
  have h := sumN_scanOcc_lines patAtom p ps hnl s []
  rw [List.nil_append] at h
  simpa [splitLines] using h

lemma tryPat_congr (atom1 atom2 : Char → Char → Bool) :
    ∀ (ps : List Char) (p : Char) (l : List Char),
      (∀ a, (a = p ∨ a ∈ ps) → ∀ c, atom1 a c = atom2 a c) →
      tryPat atom1 p ps l = tryPat atom2 p ps l := by
  intro ps
  induction ps with
  | nil =>
      intro p l h
      cases l with
      | nil => rfl
      | cons c cs => simp [tryPat, h p (Or.inl rfl) c]
  | cons q qs ih =>
      intro p l h
      cases l with
      | nil => rfl
      | cons c cs =>
          simp only [tryPat]
          rw [h p (Or.inl rfl) c]
          by_cases hac : atom2 p c = true
          · simp only [hac, if_true]
            refine ih q cs ?_
            intro a ha c'
            have hmem : a = p ∨ a ∈ q :: qs := by
              rcases ha with rfl | ha'
              · exact Or.inr (by simp)
              · exact Or.inr (by simp [ha'])
            exact h a hmem c'
          · simp [hac]

lemma scanOcc_congr (atom1 atom2 : Char → Char → Bool) (p : Char) (ps : List Char)
    (h : ∀ a, (a = p ∨ a ∈ ps) → ∀ c, atom1 a c = atom2 a c) :
    ∀ (l : List Char) k b, scanOcc atom1 p ps k b l = scanOcc atom2 p ps k b l := by
  intro l
  induction l with
  | nil => intro k b; simp [scanOcc]
  | cons c rest ih =>
      intro k b
      cases k with
      | succ k2 => simpa [scanOcc] using ih k2 (isWs c)
      | zero =>
          by_cases hb : b = true
          · subst hb
            have htr := tryPat_congr atom1 atom2 ps p (c :: rest) h
            cases htp : tryPat atom2 p ps (c :: rest) with
            | none => rw [htp] at htr; simp [scanOcc, htr, htp, ih]
            | some pr =>
                obtain ⟨lc, aft⟩ := pr
                rw [htp] at htr
                cases aft with
                | nil => simp [scanOcc, htr, htp, ih]
                | cons d aft2 =>
                    by_cases hd : isWs d = true
                    · simp [scanOcc, htr, htp, hd, ih]
                    · have hd' : isWs d = false := by simpa using hd
                      simp [scanOcc, htr, htp, hd', ih]
          · have hb' : b = false := by simpa using hb
            subst hb'
            simpa [scanOcc] using ih 0 (isWs c)

/-- C3: a candidate token at the very end of the file with no trailing
whitespace is not counted (by the tokenizer of `three_most_common_words`,
nor by the matcher of `word_occurrences`); appending a final newline makes
it count; a token at the very start of the file followed by whitespace is
counted.  Start-of-input is special-cased, end-of-input is not. -/
theorem c3_eof_boundary_asymmetry (p w : List Char) (d : Char) (rest tgt : List Char)
    (hw : grammarMatch w = true)
    (hp : p = [] ∨ ∃ q c, p = q ++ [c] ∧ isWs c = true)
    (hd : isWs d = true)
    (htgt : grammarMatch (stripWs tgt) = true) :
    wordsOf (p ++ w) = wordsOf p ∧
    wordsOf (p ++ (w ++ ['\n'])) = wordsOf p ++ [lowerStr w] ∧
    wordsOf (w ++ d :: rest) = lowerStr w :: wordsOf rest ∧
    wordOccurrences tgt (p ++ stripWs tgt) = wordOccurrences tgt p ∧
    wordOccurrences tgt (p ++ (stripWs tgt ++ ['\n'])) = wordOccurrences tgt p + 1 := by
  refine ⟨?_, ?_, ?_, ?_, ?_⟩
  · rw [wordsOf_eq_scan, wordsOf_eq_scan, scanLine_append p,
      scanLine_no_ws w (p.foldl stepNext (.idle true)) (grammar_no_ws w hw)]
    simp
  · rw [wordsOf_eq_scan, wordsOf_eq_scan, scanLine_append p,
      foldl_stepNext_boundary p hp]
    rw [show w ++ ['\n'] = w ++ '\n' :: [] from rfl]
    rw [scanLine_grammar_head w '\n' [] hw (by decide)]
    simp [scanLine]
  · rw [wordsOf_eq_scan, wordsOf_eq_scan, scanLine_grammar_head w d rest hw hd]
    simp
  · cases hsw : stripWs tgt with
    | nil => rw [hsw] at htgt; exact absurd htgt (by simp [grammarMatch])
    | cons p1 ps1 =>
        rw [hsw] at htgt
        have hch : ∀ a, (a = p1 ∨ a ∈ ps1) → isAlpha a = true ∨ a = '-' := by
          intro a ha
          apply grammar_chars _ htgt
          rcases ha with rfl | ha'
          · simp
          · simp [ha']
        have hnl : ∀ a, (a = p1 ∨ a ∈ ps1) → patAtom a '\n' = false :=
          fun a ha => patAtom_ws a '\n' (hch a ha) (by decide)
        rw [wordOccurrences_eq_scan tgt (p ++ (p1 :: ps1)) p1 ps1 hsw hnl,
            wordOccurrences_eq_scan tgt p p1 ps1 hsw hnl]
        exact scanOcc_append_wsfree patAtom p1 ps1 (p1 :: ps1)
          (fun c hc => alpha_or_hyphen_not_ws c (hch c (List.mem_cons.mp hc)))
          p 0 true
  · cases hsw : stripWs tgt with
    | nil => rw [hsw] at htgt; exact absurd htgt (by simp [grammarMatch])
    | cons p1 ps1 =>
        rw [hsw] at htgt
        have hch : ∀ a, (a = p1 ∨ a ∈ ps1) → isAlpha a = true ∨ a = '-' := by
          intro a ha
          apply grammar_chars _ htgt
          rcases ha with rfl | ha'
          · simp
          · simp [ha']
        have hnl : ∀ a, (a = p1 ∨ a ∈ ps1) → patAtom a '\n' = false :=
          fun a ha => patAtom_ws a '\n' (hch a ha) (by decide)
        rw [wordOccurrences_eq_scan tgt (p ++ ((p1 :: ps1) ++ ['\n'])) p1 ps1 hsw hnl,
            wordOccurrences_eq_scan tgt p p1 ps1 hsw hnl]
        rcases hp with rfl | ⟨q, c, rfl, hc⟩
        · simp only [List.nil_append]
          rw [scanOcc_token_end p1 ps1 hch]
          simp [scanOcc]
        · rw [scanOcc_append_barrier isWs patAtom p1 ps1
              (fun a ha c2 hc2 => patAtom_ws a c2 (hch a ha) hc2)
              (fun c2 hc2 => hc2) ((p1 :: ps1) ++ ['\n']) (q ++ [c]) 0 true (by simp)
              ⟨q, c, rfl, hc⟩]
          rw [scanOcc_token_end p1 ps1 hch]

/-- C3 witness at a concrete file: "so end" has one word, "so end\n" two,
"end " one, and the occurrence counter agrees. -/
theorem c3_eof_boundary_asymmetry_witness :
    wordsOf ("so ".data ++ "end".data) = wordsOf "so ".data ∧
    wordsOf ("so ".data ++ ("end".data ++ ['\n'])) =
      wordsOf "so ".data ++ [lowerStr "end".data] ∧
    wordsOf ("end".data ++ ' ' :: []) = lowerStr "end".data :: wordsOf [] ∧
    wordOccurrences "end".data ("so ".data ++ stripWs "end".data) =
      wordOccurrences "end".data "so ".data ∧
    wordOccurrences "end".data ("so ".data ++ (stripWs "end".data ++ ['\n'])) =
      wordOccurrences "end".data "so ".data + 1 :=
  c3_eof_boundary_asymmetry "so ".data "end".data ' ' [] "end".data (by decide)
    (Or.inr ⟨"so".data, ' ', by decide, by decide⟩) (by decide) (by decide)

/-- C4 fails on the code: the target is not escaped, so a target containing
a pattern metacharacter is interpreted as a pattern.  On the file "cat\n"
the target "c.t" yields 1 match while it occurs 0 times literally. -/
theorem c4_counterexample :
    wordOccurrences "c.t".data "cat\n".data = 1 ∧
    literalBoundaryCount "c.t".data "cat\n".data = 0 ∧
    wordOccurrences "c.t".data "cat\n".data ≠
      literalBoundaryCount "c.t".data "cat\n".data := by
  decide

/-- C4 amended: for every target that satisfies the word grammar (letters
with at most one hyphen — the only targets the CLI lets through), the result
of `word_occurrences` equals the number of boundary-delimited literal
occurrences of the target, case-insensitively; no escaping is performed, so
targets containing metacharacters are treated as patterns instead. -/
theorem c4_amended (w s : List Char) (hg : grammarMatch (stripWs w) = true) :
    wordOccurrences w s = literalBoundaryCount w s := by
  cases hsw : stripWs w with
  | nil => rw [hsw] at hg; exact absurd hg (by simp [grammarMatch])
  | cons p ps =>
      rw [hsw] at hg
      have hch : ∀ a, (a = p ∨ a ∈ ps) → isAlpha a = true ∨ a = '-' := by
        intro a ha
        apply grammar_chars _ hg
        rcases ha with rfl | ha'
        · simp
        · simp [ha']
      have hagree : ∀ a, (a = p ∨ a ∈ ps) → ∀ c, patAtom a c = litAtom a c := by
        intro a ha c
        have hnd : a ≠ '.' := by
          rcases hch a ha with h1 | heq
          · exact alpha_ne_dot a h1
          · rw [heq]; decide
        simp [patAtom, litAtom, hnd]
      simp only [wordOccurrences, literalBoundaryCount, hsw]
      congr 1
      apply List.map_congr_left
      intro line _
      exact scanOcc_congr patAtom litAtom p ps hagree line 0 true

/-- C4 witness at the target "cat". -/
theorem c4_amended_witness :
    grammarMatch (stripWs "cat".data) = true ∧
    wordOccurrences "cat".data "x cat y\n".data =
      literalBoundaryCount "cat".data "x cat y\n".data :=
  ⟨by decide, c4_amended "cat".data "x cat y\n".data (by decide)⟩

/-! Error behavior of the two library calls and the CLI dispatch. -/

lemma dropWhile_wsfree (l : List Char) (h : ∀ c ∈ l, isWs c = false) :
    l.dropWhile isWs = l := by
  cases l with
  | nil => rfl
  | cons x xs => simp [List.dropWhile_cons, h x (by simp)]

lemma stripWs_wsfree (v : List Char) (h : ∀ c ∈ v, isWs c = false) :
    stripWs v = v := by
  unfold stripWs
  rw [dropWhile_wsfree v h,
      dropWhile_wsfree v.reverse (fun c hc => h c (List.mem_reverse.mp hc)),
      List.reverse_reverse]

lemma stripWs_wsfree_concat (v : List Char) (hv : v ≠ [])
    (h : ∀ c ∈ v, isWs c = false) (c0 : Char) (hc0 : isWs c0 = true) :
    stripWs (v ++ [c0]) = v := by
  unfold stripWs
  have h1 : (v ++ [c0]).dropWhile isWs = v ++ [c0] := by
    cases v with
    | nil => exact absurd rfl hv
    | cons x xs => simp [List.dropWhile_cons, h x (by simp)]
  rw [h1]
  have h2 : (v ++ [c0]).reverse = c0 :: v.reverse := by simp
  rw [h2, List.dropWhile_cons, if_pos hc0]
  rw [dropWhile_wsfree v.reverse (fun c hc => h c (List.mem_reverse.mp hc)),
      List.reverse_reverse]

lemma grammar_patFragment (w : List Char) (hg : grammarMatch (stripWs w) = true) :
    patFragmentOk w = true := by
  unfold patFragmentOk
  rw [List.all_eq_true]
  intro c hc
  rcases grammar_chars _ hg c hc with h1 | rfl
  · simp [h1]
  · simp

lemma getLast?_split : ∀ (w : List Char) (c : Char), w.getLast? = some c →
    w = w.dropLast ++ [c] := by
  intro w
  induction w with
  | nil => intro c h; simp at h
  | cons x xs ih =>
      intro c h
      cases xs with
      | nil =>
          simp at h
          subst h
          rfl
      | cons y ys =>
          rw [List.getLast?_cons_cons] at h
          have h2 := ih c h
          calc x :: y :: ys = x :: ((y :: ys).dropLast ++ [c]) := by rw [← h2]
            _ = (x :: y :: ys).dropLast ++ [c] := rfl

/-- A target the CLI validation lets through strips to a grammar word,
which lies inside the embedded pattern fragment: the unreachable arm of
`mainRun` really is unreachable. -/
lemma wordIsValid_patFragment (w : List Char) (h : wordIsValid w = true) :
    patFragmentOk w = true := by
  unfold wordIsValid at h
  rw [Bool.or_eq_true] at h
  rcases h with h | h
  · have hfree := grammar_no_ws w h
    apply grammar_patFragment
    rw [stripWs_wsfree w hfree]
    exact h
  · rw [Bool.and_eq_true, decide_eq_true_eq] at h
    obtain ⟨hlast, hg⟩ := h
    have hw := getLast?_split w '\n' hlast
    have hvne : w.dropLast ≠ [] := by
      intro he
      rw [he] at hg
      simp [grammarMatch] at hg
    have hvfree := grammar_no_ws _ hg
    have hs : stripWs w = w.dropLast := by
      conv_lhs => rw [hw]
      exact stripWs_wsfree_concat w.dropLast hvne hvfree '\n' (by decide)
    apply grammar_patFragment
    rw [hs]
    exact hg

/-- C8: for every target the program can pass to `word_occurrences` — a
grammar-valid word, the CLI validates before calling, as the spec requires —
when the path cannot be opened (FileNotFoundError), both
`three_most_common_words` and `word_occurrences` print the single line
"path: No such file or directory" and terminate the process with exit status
1 (nonzero), returning no result; the compile step that precedes the open
succeeds on such targets, and once a file opens no content ever raises —
both calls return a plain result on every content. -/
theorem c8_file_not_found (path w : List Char) (fs : List Char → Option (List Char))
    (hw : grammarMatch (stripWs w) = true)
    (h : fs path = none) :
    threeMostCommonRun fs path = .exited [notFoundMsg path] 1 ∧
    wordOccurrencesRun fs w path = some (.exited [notFoundMsg path] 1) ∧
    (1 : Nat) ≠ 0 ∧
    (∀ (fs' : List Char → Option (List Char)) (content : List Char),
      fs' path = some content →
      threeMostCommonRun fs' path = .ok (threeMostCommonWords content) ∧
      wordOccurrencesRun fs' w path = some (.ok (wordOccurrences w content))) := by
  have hfrag : patFragmentOk w = true := grammar_patFragment w hw
  refine ⟨?_, ?_, by decide, ?_⟩
  · simp [threeMostCommonRun, h]
  · simp [wordOccurrencesRun, hfrag, h]
  · intro fs' content hc
    exact ⟨by simp [threeMostCommonRun, hc],
      by simp [wordOccurrencesRun, hfrag, hc]⟩

/-- C8 witness: the grammar-valid target "cat", once against a file system
without the file and once against one that has it. -/
theorem c8_file_not_found_witness :
    threeMostCommonRun (fun _ => none) "f".data = .exited [notFoundMsg "f".data] 1 ∧
    wordOccurrencesRun (fun _ => none) "cat".data "f".data =
      some (.exited [notFoundMsg "f".data] 1) ∧
    threeMostCommonRun (fun _ => some "a b\n".data) "f".data =
      .ok (threeMostCommonWords "a b\n".data) ∧
    wordOccurrencesRun (fun _ => some "a b\n".data) "cat".data "f".data =
      some (.ok (wordOccurrences "cat".data "a b\n".data)) := by
  have h := c8_file_not_found "f".data "cat".data (fun _ => none) (by decide) rfl
  exact ⟨h.1, h.2.1, (h.2.2.2 (fun _ => some "a b\n".data) "a b\n".data rfl).1,
    (h.2.2.2 (fun _ => some "a b\n".data) "a b\n".data rfl).2⟩

/-- C9: an `occur` invocation whose target fails the word grammar is
rejected with the message and exit status 1, and the result does not depend
on the file system at all — the file is never accessed. -/
theorem c9_invalid_word_rejected (prog w path : List Char)
    (fs : List Char → Option (List Char)) (h : wordIsValid w = false) :
    mainRun [prog, "occur".data, w, path] fs =
      ⟨[invalidWordMsg w], 1⟩ ∧
    (∀ fs', mainRun [prog, "occur".data, w, path] fs =
      mainRun [prog, "occur".data, w, path] fs') ∧
    (1 : Nat) ≠ 0 := by
  have hrun : ∀ (g : List Char → Option (List Char)),
      mainRun [prog, "occur".data, w, path] g = ⟨[invalidWordMsg w], 1⟩ := by
    intro g
    simp [mainRun, h, List.getD]
  exact ⟨hrun fs, fun fs' => (hrun fs).trans (hrun fs').symm, by decide⟩

/-- C9 witness: the target can-apostrophe-t is rejected and the file system
is irrelevant. -/
theorem c9_invalid_word_rejected_witness :
    mainRun ["prog".data, "occur".data, "can".data ++ [apos] ++ "t".data, "f".data]
        (fun _ => none) =
      ⟨[invalidWordMsg ("can".data ++ [apos] ++ "t".data)], 1⟩ ∧
    mainRun ["prog".data, "occur".data, "can".data ++ [apos] ++ "t".data, "f".data]
        (fun _ => none) =
      mainRun ["prog".data, "occur".data, "can".data ++ [apos] ++ "t".data, "f".data]
        (fun _ => some "x\n".data) := by
  have h := c9_invalid_word_rejected "prog".data
    ("can".data ++ [apos] ++ "t".data) "f".data (fun _ => none) (by decide)
  exact ⟨h.1, h.2.1 (fun _ => some "x\n".data)⟩

/-! Stability of the sort and first-seen order of the tally. -/

lemma posIn_of_not_mem (w : List Char) (l : List (List Char)) (h : w ∉ l) :
    posIn w l = l.length := by
  induction l with
  | nil => rfl
  | cons x xs ih =>
      have hx : ¬ x = w := fun he => h (by simp [he])
      simp only [posIn, if_neg hx, List.length_cons]
      rw [ih (fun hm => h (by simp [hm]))]

lemma posIn_append_left (w : List Char) (A B : List (List Char)) (h : w ∈ A) :
    posIn w (A ++ B) = posIn w A := by
  induction A with
  | nil => simp at h
  | cons x xs ih =>
      by_cases hx : x = w
      · simp [posIn, hx]
      · have hm : w ∈ xs := by
          rcases List.mem_cons.mp h with he | hm
          · exact absurd he.symm hx
          · exact hm
        simp [posIn, hx, ih hm]

lemma posIn_append_right (w : List Char) (A B : List (List Char)) (h : w ∉ A) :
    posIn w (A ++ B) = A.length + posIn w B := by
  induction A with
  | nil => simp
  | cons x xs ih =>
      have hx : ¬ x = w := fun he => h (by simp [he])
      simp [posIn, hx, ih (fun hm => h (by simp [hm]))]
      omega

lemma posIn_take (w : List Char) :
    ∀ (k : Nat) (l : List (List Char)), w ∈ l.take k →
      posIn w (l.take k) = posIn w l := by
  intro k
  induction k with
  | zero => intro l h; simp at h
  | succ k2 ih =>
      intro l h
      cases l with
      | nil => simp at h
      | cons x xs =>
          rw [List.take_succ_cons] at h ⊢
          by_cases hx : x = w
          · simp [posIn, hx]
          · have hm : w ∈ xs.take k2 := by
              rcases List.mem_cons.mp h with he | hm
              · exact absurd he.symm hx
              · exact hm
            simp [posIn, hx, ih xs hm]

lemma pair_sublist_cons {α : Type} (x y z : α) (K : List α)
    (h : List.Sublist [x, y] (z :: K)) :
    (x = z ∧ List.Sublist [y] K) ∨ List.Sublist [x, y] K := by
  cases h with
  | cons _ h' => exact Or.inr h'
  | cons₂ _ h' => exact Or.inl ⟨rfl, h'⟩

lemma before_iff_sublist :
    ∀ (L : List (List Char × Nat)) (u v : List Char) (a b : Nat),
      (L.map Prod.fst).Nodup → (u, a) ∈ L → (v, b) ∈ L → u ≠ v →
      (posIn u (L.map Prod.fst) < posIn v (L.map Prod.fst) ↔
        List.Sublist [(u, a), (v, b)] L) := by
  intro L
  induction L with
  | nil => intro u v a b _ hu _ _; simp at hu
  | cons x L' ih =>
      intro u v a b hnd hu hv huv
      rw [List.map_cons] at hnd
      obtain ⟨hx1, hnd'⟩ := List.nodup_cons.mp hnd
      by_cases hxu : x.1 = u
      · have hxeq : x = (u, a) := by
          rcases List.mem_cons.mp hu with he | hm
          · exact he.symm
          · exact absurd (by rw [hxu]; exact List.mem_map.mpr ⟨(u, a), hm, rfl⟩) hx1
        subst hxeq
        have hvmem : (v, b) ∈ L' := by
          rcases List.mem_cons.mp hv with he | hm
          · exact absurd (congrArg Prod.fst he).symm huv
          · exact hm
        apply iff_of_true
        · have hvu : ¬ (u : List Char) = v := huv
          simp [posIn, hvu]
        · exact List.Sublist.cons₂ _ (List.singleton_sublist.mpr hvmem)
      · by_cases hxv : x.1 = v
        · have hxeq : x = (v, b) := by
            rcases List.mem_cons.mp hv with he | hm
            · exact he.symm
            · exact absurd (by rw [hxv]; exact List.mem_map.mpr ⟨(v, b), hm, rfl⟩) hx1
          subst hxeq
          apply iff_of_false
          · have hvu : ¬ (v : List Char) = u := fun he => huv he.symm
            simp [posIn, hvu]
          · intro hsub
            rcases pair_sublist_cons _ _ _ _ hsub with ⟨he, -⟩ | hsub'
            · exact huv (congrArg Prod.fst he)
            · have : (v, b) ∈ L' := hsub'.subset (by simp)
              exact hx1 (List.mem_map.mpr ⟨(v, b), this, rfl⟩)
        · have humem : (u, a) ∈ L' := by
            rcases List.mem_cons.mp hu with he | hm
            · exact absurd (congrArg Prod.fst he.symm) hxu
            · exact hm
          have hvmem : (v, b) ∈ L' := by
            rcases List.mem_cons.mp hv with he | hm
            · exact absurd (congrArg Prod.fst he.symm) hxv
            · exact hm
          have hstep : (List.Sublist [(u, a), (v, b)] (x :: L')) ↔
              List.Sublist [(u, a), (v, b)] L' := by
            constructor
            · intro hsub
              rcases pair_sublist_cons _ _ _ _ hsub with ⟨he, -⟩ | hsub'
              · exact absurd (congrArg Prod.fst he.symm) hxu
              · exact hsub'
            · exact fun hsub => hsub.cons x
          rw [hstep]
          have h1 : ¬ x.1 = u := hxu
          have h2 : ¬ x.1 = v := hxv
          simp only [List.map_cons, posIn, if_neg h1, if_neg h2]
          rw [Nat.add_lt_add_iff_right]
          exact ih u v a b hnd' humem hvmem huv

lemma filter_insertDesc (n : Nat) (x : List Char × Nat)
    (l : List (List Char × Nat)) :
    List.filter (fun y => decide (y.2 = n)) (insertDesc x l) =
      if x.2 = n then x :: List.filter (fun y => decide (y.2 = n)) l
      else List.filter (fun y => decide (y.2 = n)) l := by
  induction l with
  | nil => by_cases h : x.2 = n <;> simp [insertDesc, List.filter, h]
  | cons y ys ih =>
      by_cases hc : y.2 ≤ x.2
      · rw [show insertDesc x (y :: ys) = x :: y :: ys from by
            simp [insertDesc, hc]]
        by_cases hx : x.2 = n <;> simp [List.filter_cons, hx]
      · rw [show insertDesc x (y :: ys) = y :: insertDesc x ys from by
            simp [insertDesc, hc]]
        by_cases hx : x.2 = n
        · have hy : ¬ y.2 = n := by omega
          simp [List.filter_cons, hx, hy, ih]
        · simp [List.filter_cons, hx, ih]

lemma filter_sortDesc (n : Nat) (l : List (List Char × Nat)) :
    List.filter (fun y => decide (y.2 = n)) (sortDesc l) =
      List.filter (fun y => decide (y.2 = n)) l := by
  induction l with
  | nil => rfl
  | cons x xs ih =>
      show List.filter _ (insertDesc x (sortDesc xs)) = _
      rw [filter_insertDesc]
      by_cases hx : x.2 = n <;> simp [List.filter_cons, hx, ih]

lemma mem_keys_entry (m : List (List Char × Nat)) (u : List Char)
    (h : u ∈ m.map Prod.fst) : (u, lookupCount m u) ∈ m := by
  induction m with
  | nil => simp at h
  | cons x rest ih =>
      obtain ⟨k, nn⟩ := x
      simp only [List.map_cons] at h
      by_cases hk : k = u
      · subst hk
        simp [lookupCount]
      · have hm : u ∈ rest.map Prod.fst := by
          rcases List.mem_cons.mp h with he | hm
          · exact absurd he.symm hk
          · exact hm
        simp only [lookupCount, if_neg hk]
        exact List.mem_cons.mpr (Or.inr (ih hm))

lemma foldl_bump_keys_ext (ts : List (List Char)) :
    ∀ m, ∃ ext, (List.foldl bump m ts).map Prod.fst = m.map Prod.fst ++ ext := by
  induction ts with
  | nil => intro m; exact ⟨[], by simp⟩
  | cons w ts ih =>
      intro m
      obtain ⟨ext, he⟩ := ih (bump m w)
      by_cases hm : w ∈ m.map Prod.fst
      · refine ⟨ext, ?_⟩
        rw [List.foldl_cons, he, bump_keys, if_pos hm]
      · refine ⟨w :: ext, ?_⟩
        rw [List.foldl_cons, he, bump_keys, if_neg hm]
        simp

lemma foldl_bump_keys_mem (ts : List (List Char)) :
    ∀ m w, w ∈ (List.foldl bump m ts).map Prod.fst →
      w ∈ m.map Prod.fst ∨ w ∈ ts := by
  induction ts with
  | nil => intro m w h; exact Or.inl (by simpa using h)
  | cons t ts ih =>
      intro m w h
      rw [List.foldl_cons] at h
      rcases ih (bump m t) w h with hm | hts
      · rw [bump_keys] at hm
        by_cases hmem : t ∈ m.map Prod.fst
        · rw [if_pos hmem] at hm; exact Or.inl hm
        · rw [if_neg hmem] at hm
          rcases List.mem_append.mp hm with h1 | h2
          · exact Or.inl h1
          · right; simp at h2; simp [h2]
      · exact Or.inr (by simp [hts])

lemma tally_posIn (ts : List (List Char)) :
    ∀ m (u v : List Char), u ≠ v →
      u ∉ m.map Prod.fst → v ∉ m.map Prod.fst → u ∈ ts → v ∈ ts →
      (posIn u ((List.foldl bump m ts).map Prod.fst) <
        posIn v ((List.foldl bump m ts).map Prod.fst) ↔
       posIn u ts < posIn v ts) := by
  induction ts with
  | nil => intro m u v _ _ _ hu _; simp at hu
  | cons t ts ih =>
      intro m u v huv hum hvm hu hv
      rw [List.foldl_cons]
      by_cases htu : u = t
      · subst htu
        have hRHS : posIn u (u :: ts) < posIn v (u :: ts) := by
          have hvu : ¬ (u : List Char) = v := huv
          simp [posIn, hvu]
        obtain ⟨ext, he⟩ := foldl_bump_keys_ext ts (bump m u)
        rw [he, bump_keys, if_neg hum]
        have hupos : posIn u ((m.map Prod.fst ++ [u]) ++ ext) =
            (m.map Prod.fst).length := by
          rw [posIn_append_left u _ ext (by simp)]
          rw [posIn_append_right u _ [u] hum]
          simp [posIn]
        have hvnot : v ∉ m.map Prod.fst ++ [u] := by
          intro hc
          rcases List.mem_append.mp hc with h1 | h2
          · exact hvm h1
          · simp at h2; exact huv h2.symm
        have hvpos : (m.map Prod.fst).length <
            posIn v ((m.map Prod.fst ++ [u]) ++ ext) := by
          rw [posIn_append_right v _ ext hvnot]
          simp
          omega
        refine iff_of_true ?_ hRHS
        rw [hupos]
        exact hvpos
      · by_cases htv : v = t
        · subst htv
          have hRHS : ¬ (posIn u (v :: ts) < posIn v (v :: ts)) := by
            have hvu : ¬ (v : List Char) = u := fun he => huv he.symm
            simp [posIn, hvu]
          obtain ⟨ext, he⟩ := foldl_bump_keys_ext ts (bump m v)
          rw [he, bump_keys, if_neg hvm]
          have hvpos : posIn v ((m.map Prod.fst ++ [v]) ++ ext) =
              (m.map Prod.fst).length := by
            rw [posIn_append_left v _ ext (by simp)]
            rw [posIn_append_right v _ [v] hvm]
            simp [posIn]
          have hunot : u ∉ m.map Prod.fst ++ [v] := by
            intro hc
            rcases List.mem_append.mp hc with h1 | h2
            · exact hum h1
            · simp at h2; exact huv h2
          have hupos : (m.map Prod.fst).length <
              posIn u ((m.map Prod.fst ++ [v]) ++ ext) := by
            rw [posIn_append_right u _ ext hunot]
            simp
            omega
          refine iff_of_false ?_ hRHS
          rw [hvpos]
          omega
        · have huts : u ∈ ts := by
            rcases List.mem_cons.mp hu with he | hm
            · exact absurd he htu
            · exact hm
          have hvts : v ∈ ts := by
            rcases List.mem_cons.mp hv with he | hm
            · exact absurd he htv
            · exact hm
          have hum' : u ∉ (bump m t).map Prod.fst := by
            rw [bump_keys]
            by_cases hmem : t ∈ m.map Prod.fst
            · rw [if_pos hmem]; exact hum
            · rw [if_neg hmem]
              intro hc
              rcases List.mem_append.mp hc with h1 | h2
              · exact hum h1
              · simp at h2; exact htu h2
          have hvm' : v ∉ (bump m t).map Prod.fst := by
            rw [bump_keys]
            by_cases hmem : t ∈ m.map Prod.fst
            · rw [if_pos hmem]; exact hvm
            · rw [if_neg hmem]
              intro hc
              rcases List.mem_append.mp hc with h1 | h2
              · exact hvm h1
              · simp at h2; exact htv h2
          have hts : (posIn u (t :: ts) < posIn v (t :: ts)) ↔
              (posIn u ts < posIn v ts) := by
            have h1 : ¬ t = u := fun he => htu he.symm
            have h2 : ¬ t = v := fun he => htv he.symm
            simp only [posIn, if_neg h1, if_neg h2]
            exact Nat.add_lt_add_iff_right
          rw [hts]
          exact ih (bump m t) u v huv hum' hvm' huts hvts

/-- C10: among words with equal counts, `three_most_common_words` orders
them by first occurrence in the file: the dict tally preserves insertion
order and the sort by descending count is stable, so the relative order of
two equally counted words in the result equals the relative order of their
first occurrences in the word stream of the file. -/
theorem c10_tie_break_first_seen (s : List Char) (u v : List Char)
    (huv : u ≠ v)
    (hu : u ∈ threeMostCommonWords s) (hv : v ∈ threeMostCommonWords s)
    (hcnt : lookupCount (wordTally s) u = lookupCount (wordTally s) v) :
    (posIn u (threeMostCommonWords s) < posIn v (threeMostCommonWords s) ↔
      posIn u (wordsOf s) < posIn v (wordsOf s)) := by
  have hr : threeMostCommonWords s = ((sortedTally s).map Prod.fst).take 3 := by
    rw [threeMostCommonWords, List.map_take]
  have hperm : List.Perm (sortedTally s) (wordTally s) := sortDesc_perm (wordTally s)
  have hknodS : ((sortedTally s).map Prod.fst).Nodup :=
    (hperm.map Prod.fst).nodup_iff.mpr (wordTally_keys_nodup s)
  have hu3 : u ∈ ((sortedTally s).map Prod.fst).take 3 := hr ▸ hu
  have hv3 : v ∈ ((sortedTally s).map Prod.fst).take 3 := hr ▸ hv
  have hukeysS : u ∈ (sortedTally s).map Prod.fst := (List.take_sublist 3 _).subset hu3
  have hvkeysS : v ∈ (sortedTally s).map Prod.fst := (List.take_sublist 3 _).subset hv3
  have hukeysT : u ∈ (wordTally s).map Prod.fst := (hperm.map Prod.fst).mem_iff.mp hukeysS
  have hvkeysT : v ∈ (wordTally s).map Prod.fst := (hperm.map Prod.fst).mem_iff.mp hvkeysS
  have huT : (u, lookupCount (wordTally s) u) ∈ wordTally s := mem_keys_entry _ _ hukeysT
  have hvT : (v, lookupCount (wordTally s) u) ∈ wordTally s := by
    rw [hcnt]
    exact mem_keys_entry _ _ hvkeysT
  have huS : (u, lookupCount (wordTally s) u) ∈ sortedTally s := hperm.mem_iff.mpr huT
  have hvS : (v, lookupCount (wordTally s) u) ∈ sortedTally s := hperm.mem_iff.mpr hvT
  have h1u : posIn u (threeMostCommonWords s) =
      posIn u ((sortedTally s).map Prod.fst) := by
    rw [hr]
    exact posIn_take u 3 _ hu3
  have h1v : posIn v (threeMostCommonWords s) =
      posIn v ((sortedTally s).map Prod.fst) := by
    rw [hr]
    exact posIn_take v 3 _ hv3
  have h2 := before_iff_sublist (sortedTally s) u v
    (lookupCount (wordTally s) u) (lookupCount (wordTally s) u) hknodS huS hvS huv
  have hfil : List.filter (fun y => decide (y.2 = lookupCount (wordTally s) u))
      (sortedTally s) =
      List.filter (fun y => decide (y.2 = lookupCount (wordTally s) u))
        (wordTally s) :=
    filter_sortDesc (lookupCount (wordTally s) u) (wordTally s)
  have hpairfil : List.filter (fun y => decide (y.2 = lookupCount (wordTally s) u))
      [(u, lookupCount (wordTally s) u), (v, lookupCount (wordTally s) u)] =
      [(u, lookupCount (wordTally s) u), (v, lookupCount (wordTally s) u)] := by
    simp
  have h3 : (List.Sublist [(u, lookupCount (wordTally s) u),
        (v, lookupCount (wordTally s) u)] (sortedTally s)) ↔
      (List.Sublist [(u, lookupCount (wordTally s) u),
        (v, lookupCount (wordTally s) u)] (wordTally s)) := by
    constructor
    · intro hsub
      have hsf := hsub.filter (fun y => decide (y.2 = lookupCount (wordTally s) u))
      rw [hfil, hpairfil] at hsf
      exact hsf.trans (List.filter_sublist _)
    · intro hsub
      have hsf := hsub.filter (fun y => decide (y.2 = lookupCount (wordTally s) u))
      rw [← hfil, hpairfil] at hsf
      exact hsf.trans (List.filter_sublist _)
  have h4 := before_iff_sublist (wordTally s) u v
    (lookupCount (wordTally s) u) (lookupCount (wordTally s) u)
    (wordTally_keys_nodup s) huT hvT huv
  have huw : u ∈ wordsOf s := by
    rcases foldl_bump_keys_mem (wordsOf s) [] u hukeysT with h1 | h2
    · simp at h1
    · exact h2
  have hvw : v ∈ wordsOf s := by
    rcases foldl_bump_keys_mem (wordsOf s) [] v hvkeysT with h1 | h2
    · simp at h1
    · exact h2
  have h5 : (posIn u ((wordTally s).map Prod.fst) <
      posIn v ((wordTally s).map Prod.fst)) ↔
      (posIn u (wordsOf s) < posIn v (wordsOf s)) :=
    tally_posIn (wordsOf s) [] u v huv (by simp) (by simp) huw hvw
  rw [h1u, h1v, h2, h3, ← h4, h5]

/-- C10 witness at the content "b a b a\n": counts tie at 2 and "b" was
seen first. -/
theorem c10_tie_break_first_seen_witness :
    posIn "b".data (threeMostCommonWords "b a b a\n".data) <
      posIn "a".data (threeMostCommonWords "b a b a\n".data) ↔
    posIn "b".data (wordsOf "b a b a\n".data) <
      posIn "a".data (wordsOf "b a b a\n".data) :=
  c10_tie_break_first_seen "b a b a\n".data "b".data "a".data (by decide)
    (by decide) (by decide) (by decide)

end WordAnalysis
